import Mathlib

/-!
Verification development for the dura snapshot-and-consolidation engine.

The Rust sources are embedded shallowly:

* src/snapshots.rs   — the snapshot engine (capture), over an explicit
  repository state (Repo).  Object ids are natural numbers; the textual
  rendering of an oid (hex in git) is modelled by toString.  The external
  libgit2 calls are modelled as follows: the working tree and the on-disk
  index are finite maps from path to blob content; repo.statuses(None) is
  empty iff both the working tree and the on-disk index agree with HEAD's
  tree; Index::add_all (in memory, over all non-ignored files) replaces the
  in-memory index with the working-tree content; diff_tree_to_index has no
  deltas iff the two contents agree as maps; write_tree / commit write a
  fresh object id.
* src/poll_guard.rs  — PollGuard::dir_changed / get_watermark.  Commit
  times are whole seconds; file modification times are rationals (the f32
  seconds comparison of the source is modelled by exact arithmetic).
* src/octopus.rs     — build_tree / make_compacted_commit.  A merge commit
  created by make_compacted_commit is represented by the list of ids of its
  parent commits (its tree/author/committer are copied from the first
  parent and play no role in the claims).
* src/poller.rs      — do_task / start, as an event trace per tick.
* src/git_repo_iter.rs — GitRepoIter::is_valid_directory over
  component-list paths, and CachedFs::cycle / gen_rand, with the f32
  powf(0.9) value passed in as an exact rational parameter.
-/

namespace Dura

/-- Blob content of a tree or of the working tree: path ↦ file content. -/
abbrev Content := List (String × String)

/-- A commit object (src/snapshots.rs writes these via repo.commit). -/
structure CommitObj where
  parents : List Nat
  tree : Nat
  author : String
  time : Int
  message : String
deriving DecidableEq

/-- Result record of a successful capture (struct CaptureStatus). -/
structure CaptureStatus where
  dura_branch : String
  commit_hash : Nat
  base_hash : Nat
deriving DecidableEq

/-- The repository state visible to the snapshot engine. -/
structure Repo where
  head : Nat
  branches : List (String × Nat)
  tags : List (String × Nat)
  commits : List (Nat × CommitObj)
  trees : List (Nat × Content)
  worktree : Content
  indexFile : Content
  nextOid : Nat
deriving DecidableEq

/-- Failure cases of capture that our state makes observable. -/
inductive GitErr where
  | headUnresolved
  | badObject
deriving DecidableEq

/-- Result of capture: Ok(Option CaptureStatus) or Err. -/
inductive CapResult where
  | ok (st : Option CaptureStatus)
  | err (e : GitErr)
deriving DecidableEq

/-- Committer identity and timestamp resolved by get_committer. -/
structure Sig where
  author : String
  time : Int
deriving DecidableEq

/-- format!("dura/\x7b\x7d", head.id()) — branch name derived from HEAD. -/
def duraBranchName (head : Nat) : String := "dura/" ++ toString head

/-- Extensional equality of two contents viewed as finite maps. -/
def mapEqB (a b : Content) : Bool :=
  a.all (fun kv => List.lookup kv.1 b == some kv.2) &&
  b.all (fun kv => List.lookup kv.1 a == some kv.2)

/-- Content of HEAD's tree, when present in the object store. -/
def headTreeContent (r : Repo) : Option Content :=
  (List.lookup r.head r.commits).bind (fun c => List.lookup c.tree r.trees)

/-- repo.statuses(None).is_empty(): no worktree or staged change w.r.t. HEAD. -/
def statuses_is_empty (r : Repo) : Bool :=
  match headTreeContent r with
  | some t => mapEqB r.worktree t && mapEqB r.indexFile t
  | none => false

/-- index.add_all(["*"], DEFAULT, None): the in-memory index now holds the
(non-ignored) working-tree content. -/
def add_all (r : Repo) : Content := r.worktree

/-- branch.delete() for a local branch. -/
def delete_branch (r : Repo) (name : String) : Repo :=
  { r with branches := r.branches.filter (fun p => !(p.1 == name)) }

/-- Point ref refs/heads/name at oid (created or moved). -/
def set_branch (r : Repo) (name : String) (oid : Nat) : Repo :=
  { r with branches := (name, oid) :: r.branches.filter (fun p => !(p.1 == name)) }

/-- index.write_tree(): a new tree object with the given content. -/
def write_tree (r : Repo) (content : Content) : Nat × Repo :=
  (r.nextOid, { r with trees := (r.nextOid, content) :: r.trees,
                       nextOid := r.nextOid + 1 })

/-- Write a commit object into the object store. -/
def write_commit (r : Repo) (c : CommitObj) : Nat × Repo :=
  (r.nextOid, { r with commits := (r.nextOid, c) :: r.commits,
                       nextOid := r.nextOid + 1 })

/-- Lines 41–55 of src/snapshots.rs: resolve the dura/<HEAD> branch.
If the branch exists and peels to a commit that is not HEAD, that commit is
the parent source; otherwise (tip equals HEAD, or peel fails) the branch is
deleted and treated as non-existent. -/
def resolve_dura_branch (r : Repo) : Option Nat × Repo :=
  match List.lookup (duraBranchName r.head) r.branches with
  | some tip =>
    match List.lookup tip r.commits with
    | some _ =>
      if tip == r.head then (none, delete_branch r (duraBranchName r.head))
      else (some tip, r)
    | none => (none, delete_branch r (duraBranchName r.head))
  | none => (none, r)

/-- Lines 70–84 of src/snapshots.rs: write the tree, (re)create the branch
at HEAD if absent, then commit onto refs/heads/<bn> with the single chosen
parent.  Returns the new commit id together with the new state. -/
def commit_state (sig : Sig) (r1 : Repo) (bn : String) (parentOid : Nat) : Nat × Repo :=
  let wt := write_tree r1 (add_all r1)
  let r2 := wt.2
  let r3 := if (List.lookup bn r2.branches).isNone then set_branch r2 bn r2.head else r2
  let wc := write_commit r3
    { parents := [parentOid], tree := wt.1, author := sig.author,
      time := sig.time, message := "dura auto-backup" }
  (wc.1, set_branch wc.2 bn wc.1)

/-- pub fn capture (src/snapshots.rs lines 30–91). -/
def capture (sig : Sig) (r : Repo) : CapResult × Repo :=
  match List.lookup r.head r.commits with
  | none => (.err .headUnresolved, r)
  | some _ =>
    if statuses_is_empty r then (.ok none, r)
    else
      let bn := duraBranchName r.head
      let pr := resolve_dura_branch r
      let r1 := pr.2
      let parentOid := pr.1.getD r.head
      match List.lookup parentOid r1.commits with
      | none => (.err .badObject, r1)
      | some parentC =>
        match List.lookup parentC.tree r1.trees with
        | none => (.err .badObject, r1)
        | some parentTree =>
          if mapEqB parentTree (add_all r1) then (.ok none, r1)
          else
            let cs := commit_state sig r1 bn parentOid
            (.ok (some ⟨bn, cs.1, r.head⟩), cs.2)

/-- Well-formedness of a repository state: HEAD resolves, every stored oid
is below the allocation counter, commits' trees are present, branch tips
resolve, and the working tree is a map (no duplicate paths). -/
def wf (r : Repo) : Prop :=
  (List.lookup r.head r.commits).isSome = true ∧
  r.head < r.nextOid ∧
  (∀ p ∈ r.commits, p.1 < r.nextOid ∧ p.2.tree < r.nextOid ∧
    (List.lookup p.2.tree r.trees).isSome = true) ∧
  (∀ p ∈ r.trees, p.1 < r.nextOid) ∧
  (∀ p ∈ r.branches, p.2 < r.nextOid ∧ (List.lookup p.2 r.commits).isSome = true) ∧
  (r.worktree.map Prod.fst).Nodup

instance (r : Repo) : Decidable (wf r) := by
  unfold wf; infer_instance

/-! ### Association-list helper lemmas -/

theorem lookup_filter_ne {β : Type} (n bn : String) (h : n ≠ bn)
    (l : List (String × β)) :
    List.lookup n (l.filter (fun p => !(p.1 == bn))) = List.lookup n l := by
  induction l with
  | nil => rfl
  | cons hd tl ih =>
    obtain ⟨k, v⟩ := hd
    by_cases hk : k = bn
    · have hb : (k == bn) = true := beq_iff_eq.mpr hk
      have hne : (n == k) = false := beq_eq_false_iff_ne.mpr (by rw [hk]; exact h)
      simp [List.filter_cons, hb, List.lookup, hne, ih]
    · have hb : (k == bn) = false := beq_eq_false_iff_ne.mpr hk
      simp only [List.filter_cons, hb, Bool.not_false, if_pos, List.lookup]
      rw [ih]

theorem lookup_filter_self {β : Type} (bn : String) (l : List (String × β)) :
    List.lookup bn (l.filter (fun p => !(p.1 == bn))) = none := by
  induction l with
  | nil => rfl
  | cons hd tl ih =>
    obtain ⟨k, v⟩ := hd
    by_cases hk : k = bn
    · have hb : (k == bn) = true := beq_iff_eq.mpr hk
      simp [List.filter_cons, hb, ih]
    · have hb : (k == bn) = false := beq_eq_false_iff_ne.mpr hk
      have hne : (bn == k) = false := beq_eq_false_iff_ne.mpr (fun hh => hk hh.symm)
      simp [List.filter_cons, hb, List.lookup, hne, ih]

theorem mem_of_lookup_eq_some {α β : Type} [BEq α] [LawfulBEq α]
    {a : α} {b : β} {l : List (α × β)} (h : List.lookup a l = some b) :
    (a, b) ∈ l := by
  induction l with
  | nil => simp [List.lookup] at h
  | cons hd tl ih =>
    obtain ⟨k, v⟩ := hd
    rw [List.lookup] at h
    by_cases he : (a == k) = true
    · rw [he] at h
      simp only [Option.some.injEq] at h
      have ha : a = k := eq_of_beq he
      rw [ha, ← h]
      exact List.mem_cons_self _ _
    · rw [eq_false_of_ne_true he] at h
      exact List.mem_cons_of_mem _ (ih h)

theorem lookup_self_of_nodup {l : Content} (h : (l.map Prod.fst).Nodup) :
    ∀ kv ∈ l, List.lookup kv.1 l = some kv.2 := by
  induction l with
  | nil => intro kv hm; simp at hm
  | cons hd tl ih =>
    obtain ⟨k, v⟩ := hd
    intro kv hm
    rcases List.mem_cons.mp hm with h1 | h1
    · rw [h1]; simp [List.lookup]
    · have hk : kv.1 ≠ k := by
        intro he
        have hmem : kv.1 ∈ tl.map Prod.fst := List.mem_map_of_mem Prod.fst h1
        rw [List.map_cons, List.nodup_cons] at h
        exact h.1 (he ▸ hmem)
      rw [List.lookup, beq_eq_false_iff_ne.mpr hk]
      have htl : (tl.map Prod.fst).Nodup := by
        rw [List.map_cons, List.nodup_cons] at h
        exact h.2
      exact ih htl kv h1

theorem mapEqB_refl {l : Content} (h : (l.map Prod.fst).Nodup) :
    mapEqB l l = true := by
  unfold mapEqB
  rw [Bool.and_self]
  rw [List.all_eq_true]
  intro kv hm
  rw [lookup_self_of_nodup h kv hm]
  exact beq_self_eq_true _

/-! ### Projection lemmas for the state combinators -/

@[simp] theorem delete_branch_head (r : Repo) (n : String) :
    (delete_branch r n).head = r.head := rfl
@[simp] theorem delete_branch_worktree (r : Repo) (n : String) :
    (delete_branch r n).worktree = r.worktree := rfl
@[simp] theorem delete_branch_indexFile (r : Repo) (n : String) :
    (delete_branch r n).indexFile = r.indexFile := rfl
@[simp] theorem delete_branch_tags (r : Repo) (n : String) :
    (delete_branch r n).tags = r.tags := rfl
@[simp] theorem delete_branch_commits (r : Repo) (n : String) :
    (delete_branch r n).commits = r.commits := rfl
@[simp] theorem delete_branch_trees (r : Repo) (n : String) :
    (delete_branch r n).trees = r.trees := rfl
@[simp] theorem delete_branch_nextOid (r : Repo) (n : String) :
    (delete_branch r n).nextOid = r.nextOid := rfl
@[simp] theorem delete_branch_branches (r : Repo) (n : String) :
    (delete_branch r n).branches = r.branches.filter (fun p => !(p.1 == n)) := rfl

@[simp] theorem set_branch_head (r : Repo) (n : String) (o : Nat) :
    (set_branch r n o).head = r.head := rfl
@[simp] theorem set_branch_worktree (r : Repo) (n : String) (o : Nat) :
    (set_branch r n o).worktree = r.worktree := rfl
@[simp] theorem set_branch_indexFile (r : Repo) (n : String) (o : Nat) :
    (set_branch r n o).indexFile = r.indexFile := rfl
@[simp] theorem set_branch_tags (r : Repo) (n : String) (o : Nat) :
    (set_branch r n o).tags = r.tags := rfl
@[simp] theorem set_branch_commits (r : Repo) (n : String) (o : Nat) :
    (set_branch r n o).commits = r.commits := rfl
@[simp] theorem set_branch_trees (r : Repo) (n : String) (o : Nat) :
    (set_branch r n o).trees = r.trees := rfl
@[simp] theorem set_branch_nextOid (r : Repo) (n : String) (o : Nat) :
    (set_branch r n o).nextOid = r.nextOid := rfl
@[simp] theorem set_branch_branches (r : Repo) (n : String) (o : Nat) :
    (set_branch r n o).branches = (n, o) :: r.branches.filter (fun p => !(p.1 == n)) := rfl

/-- The state produced by commit_state, spelled out. -/
theorem commit_state_spec (sig : Sig) (r1 : Repo) (bn : String) (p : Nat) :
    commit_state sig r1 bn p =
      (r1.nextOid + 1,
       { head := r1.head,
         branches := (bn, r1.nextOid + 1) :: r1.branches.filter (fun q => !(q.1 == bn)),
         tags := r1.tags,
         commits := (r1.nextOid + 1,
           { parents := [p], tree := r1.nextOid, author := sig.author,
             time := sig.time, message := "dura auto-backup" }) :: r1.commits,
         trees := (r1.nextOid, add_all r1) :: r1.trees,
         worktree := r1.worktree,
         indexFile := r1.indexFile,
         nextOid := r1.nextOid + 2 }) := by
  unfold commit_state write_tree write_commit
  by_cases hb : (List.lookup bn r1.branches).isNone
  · simp only [hb, if_pos, set_branch, delete_branch]
    simp [List.filter_filter]
  · simp only [hb, if_neg, set_branch]
    simp

/-! ### Path lemmas for resolve_dura_branch and capture -/

theorem resolve_eq_absent {r : Repo}
    (h : List.lookup (duraBranchName r.head) r.branches = none) :
    resolve_dura_branch r = (none, r) := by
  unfold resolve_dura_branch; rw [h]

theorem resolve_eq_stale {r : Repo} {tip : Nat} {c : CommitObj}
    (h : List.lookup (duraBranchName r.head) r.branches = some tip)
    (_hc : List.lookup tip r.commits = some c) (he : tip = r.head) :
    resolve_dura_branch r = (none, delete_branch r (duraBranchName r.head)) := by
  unfold resolve_dura_branch
  rw [h]
  simp [_hc, he]
  cases List.lookup r.head r.commits <;> rfl

theorem resolve_eq_dangling {r : Repo} {tip : Nat}
    (h : List.lookup (duraBranchName r.head) r.branches = some tip)
    (hc : List.lookup tip r.commits = none) :
    resolve_dura_branch r = (none, delete_branch r (duraBranchName r.head)) := by
  unfold resolve_dura_branch
  rw [h]
  simp [hc]

theorem resolve_eq_tip {r : Repo} {tip : Nat} {c : CommitObj}
    (h : List.lookup (duraBranchName r.head) r.branches = some tip)
    (hc : List.lookup tip r.commits = some c) (he : tip ≠ r.head) :
    resolve_dura_branch r = (some tip, r) := by
  unfold resolve_dura_branch
  rw [h]
  simp [hc, beq_iff_eq, he]

theorem capture_eq_headUnresolved (sig : Sig) {r : Repo}
    (h : List.lookup r.head r.commits = none) :
    capture sig r = (.err .headUnresolved, r) := by
  unfold capture; rw [h]

theorem capture_eq_clean (sig : Sig) {r : Repo} {c : CommitObj}
    (h : List.lookup r.head r.commits = some c)
    (hs : statuses_is_empty r = true) :
    capture sig r = (.ok none, r) := by
  unfold capture; rw [h]; simp [hs]

theorem capture_eq_run (sig : Sig) {r r1 : Repo} {bt : Option Nat}
    {c pc : CommitObj} {pt : Content}
    (h : List.lookup r.head r.commits = some c)
    (hs : statuses_is_empty r = false)
    (hres : resolve_dura_branch r = (bt, r1))
    (hp : List.lookup (bt.getD r.head) r1.commits = some pc)
    (ht : List.lookup pc.tree r1.trees = some pt) :
    capture sig r =
      (if mapEqB pt (add_all r1) then (.ok none, r1)
       else ((.ok (some ⟨duraBranchName r.head,
                        (commit_state sig r1 (duraBranchName r.head) (bt.getD r.head)).1,
                        r.head⟩)),
             (commit_state sig r1 (duraBranchName r.head) (bt.getD r.head)).2)) := by
  unfold capture
  rw [h]
  simp only [hs, Bool.false_eq_true, if_false, hres, hp, ht]

theorem capture_eq_parent_missing (sig : Sig) {r r1 : Repo} {bt : Option Nat}
    {c : CommitObj}
    (h : List.lookup r.head r.commits = some c)
    (hs : statuses_is_empty r = false)
    (hres : resolve_dura_branch r = (bt, r1))
    (hp : List.lookup (bt.getD r.head) r1.commits = none) :
    capture sig r = (.err .badObject, r1) := by
  unfold capture
  rw [h]
  simp only [hs, Bool.false_eq_true, if_false, hres, hp]

theorem capture_eq_tree_missing (sig : Sig) {r r1 : Repo} {bt : Option Nat}
    {c pc : CommitObj}
    (h : List.lookup r.head r.commits = some c)
    (hs : statuses_is_empty r = false)
    (hres : resolve_dura_branch r = (bt, r1))
    (hp : List.lookup (bt.getD r.head) r1.commits = some pc)
    (ht : List.lookup pc.tree r1.trees = none) :
    capture sig r = (.err .badObject, r1) := by
  unfold capture
  rw [h]
  simp only [hs, Bool.false_eq_true, if_false, hres, hp, ht]

theorem filter_keep_self {α : Type} (q : α → Bool) (l : List α) :
    (l.filter q).filter q = l.filter q := by
  induction l with
  | nil => rfl
  | cons hd tl ih =>
    cases hq : q hd <;> simp [List.filter_cons, hq, ih]

theorem resolve_state_cases (r : Repo) :
    (resolve_dura_branch r).2 = r ∨
    (resolve_dura_branch r).2 = delete_branch r (duraBranchName r.head) := by
  cases h1 : List.lookup (duraBranchName r.head) r.branches with
  | none => rw [resolve_eq_absent h1]; exact Or.inl rfl
  | some tip =>
    cases h2 : List.lookup tip r.commits with
    | none => rw [resolve_eq_dangling h1 h2]; exact Or.inr rfl
    | some c =>
      by_cases he : tip = r.head
      · rw [resolve_eq_stale h1 h2 he]; exact Or.inr rfl
      · rw [resolve_eq_tip h1 h2 he]; exact Or.inl rfl

/-- Frame facts for a state that is either r itself or r with the dura
branch deleted. -/
theorem frame_easy {r r1 : Repo}
    (h : r1 = r ∨ r1 = delete_branch r (duraBranchName r.head)) :
    r1.head = r.head ∧ r1.worktree = r.worktree ∧ r1.indexFile = r.indexFile ∧
    r1.tags = r.tags ∧ r1.commits = r.commits ∧ r1.trees = r.trees ∧
    r1.nextOid = r.nextOid ∧
    r1.branches.filter (fun p => !(p.1 == duraBranchName r.head)) =
      r.branches.filter (fun p => !(p.1 == duraBranchName r.head)) := by
  rcases h with h | h <;> subst h
  · exact ⟨rfl, rfl, rfl, rfl, rfl, rfl, rfl, rfl⟩
  · refine ⟨rfl, rfl, rfl, rfl, rfl, rfl, rfl, ?_⟩
    rw [delete_branch_branches, filter_keep_self]

/-- C1 (HEAD preservation / frame effect of capture): a call to capture
never modifies the HEAD oid, the working tree, the on-disk index, or any
tag; every branch other than dura/<HEAD> keeps its value (only the ref
refs/heads/dura/<HEAD> may change), and the object store only grows. -/
theorem capture_frame (sig : Sig) (r : Repo) :
    ((capture sig r).2).head = r.head ∧
    ((capture sig r).2).worktree = r.worktree ∧
    ((capture sig r).2).indexFile = r.indexFile ∧
    ((capture sig r).2).tags = r.tags ∧
    ((capture sig r).2).branches.filter (fun p => !(p.1 == duraBranchName r.head)) =
      r.branches.filter (fun p => !(p.1 == duraBranchName r.head)) ∧
    List.IsSuffix r.commits ((capture sig r).2).commits ∧
    List.IsSuffix r.trees ((capture sig r).2).trees := by
  cases hl : List.lookup r.head r.commits with
  | none =>
    rw [capture_eq_headUnresolved sig hl]
    exact ⟨rfl, rfl, rfl, rfl, rfl, List.suffix_refl _, List.suffix_refl _⟩
  | some c =>
    by_cases hs : statuses_is_empty r = true
    · rw [capture_eq_clean sig hl hs]
      exact ⟨rfl, rfl, rfl, rfl, rfl, List.suffix_refl _, List.suffix_refl _⟩
    · have hs' : statuses_is_empty r = false := eq_false_of_ne_true hs
      rcases hres : resolve_dura_branch r with ⟨bt, r1⟩
      have hcases : r1 = r ∨ r1 = delete_branch r (duraBranchName r.head) := by
        have := resolve_state_cases r
        rw [hres] at this
        exact this
      obtain ⟨e1, e2, e3, e4, e5, e6, e7, e8⟩ := frame_easy hcases
      cases hp : List.lookup (bt.getD r.head) r1.commits with
      | none =>
        rw [capture_eq_parent_missing sig hl hs' hres hp]
        exact ⟨e1, e2, e3, e4, e8, e5 ▸ List.suffix_refl _, e6 ▸ List.suffix_refl _⟩
      | some pc =>
        cases ht : List.lookup pc.tree r1.trees with
        | none =>
          rw [capture_eq_tree_missing sig hl hs' hres hp ht]
          exact ⟨e1, e2, e3, e4, e8, e5 ▸ List.suffix_refl _, e6 ▸ List.suffix_refl _⟩
        | some pt =>
          rw [capture_eq_run sig hl hs' hres hp ht]
          by_cases hd : mapEqB pt (add_all r1) = true
          · rw [if_pos hd]
            exact ⟨e1, e2, e3, e4, e8, e5 ▸ List.suffix_refl _, e6 ▸ List.suffix_refl _⟩
          · rw [if_neg hd, commit_state_spec]
            refine ⟨e1, e2, e3, e4, ?_, ?_, ?_⟩
            · show ((duraBranchName r.head, r1.nextOid + 1) ::
                r1.branches.filter (fun q => !(q.1 == duraBranchName r.head))).filter
                  (fun p => !(p.1 == duraBranchName r.head)) = _
              rw [List.filter_cons]
              simp only [beq_self_eq_true, Bool.not_true, Bool.false_eq_true, if_false]
              rw [filter_keep_self, e8]
            · show List.IsSuffix r.commits (_ :: r1.commits)
              rw [e5]
              exact (List.suffix_cons _ _)
            · show List.IsSuffix r.trees (_ :: r1.trees)
              rw [e6]
              exact (List.suffix_cons _ _)

theorem statuses_congr {a b : Repo} (hh : headTreeContent a = headTreeContent b)
    (hwt : a.worktree = b.worktree) (hix : a.indexFile = b.indexFile) :
    statuses_is_empty a = statuses_is_empty b := by
  unfold statuses_is_empty
  rw [hh, hwt, hix]

/-- After committing a snapshot, the second capture call trivially returns
None: the fresh dura branch tip's tree is exactly the (unchanged) working
tree, so the diff is empty. -/
theorem second_after_commit (sig2 sig : Sig) (r r1 : Repo) (c : CommitObj)
    (parentOid : Nat)
    (hl : List.lookup r.head r.commits = some c)
    (hs' : statuses_is_empty r = false)
    (e1 : r1.head = r.head) (e2 : r1.worktree = r.worktree)
    (e3 : r1.indexFile = r.indexFile)
    (e5 : r1.commits = r.commits) (e6 : r1.trees = r.trees)
    (e7 : r1.nextOid = r.nextOid)
    (hw2 : r.head < r.nextOid)
    (hctree : c.tree < r.nextOid)
    (hw6 : (r.worktree.map Prod.fst).Nodup) :
    (capture sig2 (commit_state sig r1 (duraBranchName r.head) parentOid).2).1 =
      CapResult.ok none := by
  rw [commit_state_spec]
  set newC : CommitObj :=
    { parents := [parentOid], tree := r1.nextOid, author := sig.author,
      time := sig.time, message := "dura auto-backup" } with hnewC
  set rr : Repo :=
    { head := r1.head,
      branches := (duraBranchName r.head, r1.nextOid + 1) ::
        r1.branches.filter (fun q => !(q.1 == duraBranchName r.head)),
      tags := r1.tags,
      commits := (r1.nextOid + 1, newC) :: r1.commits,
      trees := (r1.nextOid, add_all r1) :: r1.trees,
      worktree := r1.worktree,
      indexFile := r1.indexFile,
      nextOid := r1.nextOid + 2 } with hrr
  have hne_head : (r.head == r1.nextOid + 1) = false := by
    rw [beq_eq_false_iff_ne]
    omega
  have hl2 : List.lookup rr.head rr.commits = some c := by
    show List.lookup rr.head ((r1.nextOid + 1, newC) :: r1.commits) = some c
    rw [show rr.head = r.head from e1, List.lookup, hne_head, e5]
    exact hl
  have hht : headTreeContent rr = headTreeContent r := by
    unfold headTreeContent
    rw [hl2, hl]
    show List.lookup c.tree rr.trees = List.lookup c.tree r.trees
    show List.lookup c.tree ((r1.nextOid, add_all r1) :: r1.trees) = _
    have hne_tree : (c.tree == r1.nextOid) = false := by
      rw [beq_eq_false_iff_ne]
      omega
    simp only [List.lookup, hne_tree, e6]
  have hs2 : statuses_is_empty rr = false := by
    rw [statuses_congr hht (by rw [show rr.worktree = r1.worktree from rfl, e2])
      (by rw [show rr.indexFile = r1.indexFile from rfl, e3])]
    exact hs'
  have hbn : duraBranchName rr.head = duraBranchName r.head := by rw [e1]
  have hb2 : List.lookup (duraBranchName rr.head) rr.branches =
      some (r1.nextOid + 1) := by
    rw [hbn]
    show List.lookup (duraBranchName r.head)
      ((duraBranchName r.head, r1.nextOid + 1) :: _) = _
    rw [List.lookup, beq_self_eq_true]
  have hc2 : List.lookup (r1.nextOid + 1) rr.commits = some newC := by
    show List.lookup (r1.nextOid + 1) ((r1.nextOid + 1, newC) :: r1.commits) = _
    rw [List.lookup, beq_self_eq_true]
  have hne2 : r1.nextOid + 1 ≠ rr.head := by
    rw [show rr.head = r.head from e1]
    omega
  have hres2 := resolve_eq_tip (r := rr) hb2 hc2 hne2
  have hp2 : List.lookup ((some (r1.nextOid + 1)).getD rr.head) rr.commits =
      some newC := hc2
  have ht2 : List.lookup newC.tree rr.trees = some (add_all r1) := by
    show List.lookup r1.nextOid ((r1.nextOid, add_all r1) :: r1.trees) = _
    rw [List.lookup, beq_self_eq_true]
  rw [capture_eq_run sig2 hl2 hs2 hres2 hp2 ht2]
  have hdiff : mapEqB (add_all r1) (add_all rr) = true := by
    show mapEqB r1.worktree rr.worktree = true
    rw [show rr.worktree = r1.worktree from rfl, e2]
    exact mapEqB_refl hw6
  rw [if_pos hdiff]

/-- C2 (idempotence at rest): with no intervening filesystem change, the
capture call following any capture call returns Ok(None). -/
theorem capture_idempotent_at_rest (sig sig2 : Sig) (r : Repo) (h : wf r) :
    (capture sig2 (capture sig r).2).1 = CapResult.ok none := by
  obtain ⟨hw1, hw2, hw3, hw4, hw5, hw6⟩ := h
  obtain ⟨c, hl⟩ : ∃ c, List.lookup r.head r.commits = some c :=
    Option.isSome_iff_exists.mp hw1
  have hctree : c.tree < r.nextOid := (hw3 _ (mem_of_lookup_eq_some hl)).2.1
  by_cases hs : statuses_is_empty r = true
  · rw [capture_eq_clean sig hl hs]
    rw [show ((CapResult.ok none, r) : CapResult × Repo).2 = r from rfl]
    rw [capture_eq_clean sig2 hl hs]
  · have hs' : statuses_is_empty r = false := eq_false_of_ne_true hs
    cases hb : List.lookup (duraBranchName r.head) r.branches with
    | none =>
      have hres := resolve_eq_absent hb
      have hp : List.lookup ((none : Option Nat).getD r.head) r.commits = some c := hl
      obtain ⟨pt, ht⟩ : ∃ pt, List.lookup c.tree r.trees = some pt :=
        Option.isSome_iff_exists.mp (hw3 _ (mem_of_lookup_eq_some hl)).2.2
      rw [capture_eq_run sig hl hs' hres hp ht]
      by_cases hdiff : mapEqB pt (add_all r) = true
      · rw [if_pos hdiff]
        show (capture sig2 r).1 = CapResult.ok none
        rw [capture_eq_run sig2 hl hs' hres hp ht, if_pos hdiff]
      · rw [if_neg hdiff]
        show (capture sig2 (commit_state sig r (duraBranchName r.head)
          ((none : Option Nat).getD r.head)).2).1 = CapResult.ok none
        exact second_after_commit sig2 sig r r c _ hl hs' rfl rfl rfl rfl rfl rfl
          hw2 hctree hw6
    | some tip =>
      cases hbc : List.lookup tip r.commits with
      | none =>
        have hres := resolve_eq_dangling hb hbc
        have e0 : (delete_branch r (duraBranchName r.head)).commits = r.commits := rfl
        have hp : List.lookup ((none : Option Nat).getD r.head)
            (delete_branch r (duraBranchName r.head)).commits = some c := hl
        obtain ⟨pt, ht0⟩ : ∃ pt, List.lookup c.tree r.trees = some pt :=
          Option.isSome_iff_exists.mp (hw3 _ (mem_of_lookup_eq_some hl)).2.2
        have ht : List.lookup c.tree (delete_branch r (duraBranchName r.head)).trees =
            some pt := ht0
        rw [capture_eq_run sig hl hs' hres hp ht]
        have hsd : statuses_is_empty (delete_branch r (duraBranchName r.head)) = false := by
          rw [statuses_congr (a := delete_branch r (duraBranchName r.head)) rfl rfl rfl]
          exact hs'
        by_cases hdiff : mapEqB pt (add_all (delete_branch r (duraBranchName r.head))) = true
        · rw [if_pos hdiff]
          show (capture sig2 (delete_branch r (duraBranchName r.head))).1 =
            CapResult.ok none
          have hb2 : List.lookup
              (duraBranchName (delete_branch r (duraBranchName r.head)).head)
              (delete_branch r (duraBranchName r.head)).branches = none := by
            rw [delete_branch_branches]
            exact lookup_filter_self _ _
          have hres2 := resolve_eq_absent hb2
          rw [capture_eq_run sig2
            (r := delete_branch r (duraBranchName r.head)) hl hsd hres2 hp ht,
            if_pos hdiff]
        · rw [if_neg hdiff]
          show (capture sig2 (commit_state sig (delete_branch r (duraBranchName r.head))
            (duraBranchName r.head) ((none : Option Nat).getD r.head)).2).1 =
            CapResult.ok none
          exact second_after_commit sig2 sig r _ c _ hl hs' rfl rfl rfl rfl rfl rfl
            hw2 hctree hw6
      | some tc =>
        by_cases he : tip = r.head
        · have hres := resolve_eq_stale hb hbc he
          have hp : List.lookup ((none : Option Nat).getD r.head)
              (delete_branch r (duraBranchName r.head)).commits = some c := hl
          obtain ⟨pt, ht0⟩ : ∃ pt, List.lookup c.tree r.trees = some pt :=
            Option.isSome_iff_exists.mp (hw3 _ (mem_of_lookup_eq_some hl)).2.2
          have ht : List.lookup c.tree
              (delete_branch r (duraBranchName r.head)).trees = some pt := ht0
          rw [capture_eq_run sig hl hs' hres hp ht]
          have hsd : statuses_is_empty (delete_branch r (duraBranchName r.head)) = false := by
            rw [statuses_congr (a := delete_branch r (duraBranchName r.head)) rfl rfl rfl]
            exact hs'
          by_cases hdiff : mapEqB pt (add_all (delete_branch r (duraBranchName r.head))) = true
          · rw [if_pos hdiff]
            show (capture sig2 (delete_branch r (duraBranchName r.head))).1 =
              CapResult.ok none
            have hb2 : List.lookup
                (duraBranchName (delete_branch r (duraBranchName r.head)).head)
                (delete_branch r (duraBranchName r.head)).branches = none := by
              rw [delete_branch_branches]
              exact lookup_filter_self _ _
            have hres2 := resolve_eq_absent hb2
            rw [capture_eq_run sig2
              (r := delete_branch r (duraBranchName r.head)) hl hsd hres2 hp ht,
              if_pos hdiff]
          · rw [if_neg hdiff]
            show (capture sig2 (commit_state sig (delete_branch r (duraBranchName r.head))
              (duraBranchName r.head) ((none : Option Nat).getD r.head)).2).1 =
              CapResult.ok none
            exact second_after_commit sig2 sig r _ c _ hl hs' rfl rfl rfl rfl rfl rfl
              hw2 hctree hw6
        · have hres := resolve_eq_tip hb hbc he
          have hp : List.lookup ((some tip).getD r.head) r.commits = some tc := hbc
          have httree : tc.tree < r.nextOid := (hw3 _ (mem_of_lookup_eq_some hbc)).2.1
          obtain ⟨pt, ht⟩ : ∃ pt, List.lookup tc.tree r.trees = some pt :=
            Option.isSome_iff_exists.mp (hw3 _ (mem_of_lookup_eq_some hbc)).2.2
          rw [capture_eq_run sig hl hs' hres hp ht]
          by_cases hdiff : mapEqB pt (add_all r) = true
          · rw [if_pos hdiff]
            show (capture sig2 r).1 = CapResult.ok none
            rw [capture_eq_run sig2 hl hs' hres hp ht, if_pos hdiff]
          · rw [if_neg hdiff]
            show (capture sig2 (commit_state sig r (duraBranchName r.head)
              ((some tip).getD r.head)).2).1 = CapResult.ok none
            exact second_after_commit sig2 sig r r c _ hl hs' rfl rfl rfl rfl rfl rfl
              hw2 hctree hw6

/-- The parent selection rule as the claim states it: resolve
B = dura/<HEAD>; if B does not exist the parent is HEAD; if B exists with
tip equal to HEAD it is treated as non-existent (parent HEAD); otherwise
the parent is the current tip of B. -/
def parent_rule (r : Repo) : Nat :=
  match List.lookup (duraBranchName r.head) r.branches with
  | none => r.head
  | some tip => if tip = r.head then r.head else tip

/-- Explicit result of a capture call that reaches the commit stage. -/
theorem capture_commit_facts (sig : Sig) {r r1 : Repo} {bt : Option Nat}
    {c pc : CommitObj} {pt : Content}
    (hl : List.lookup r.head r.commits = some c)
    (hs' : statuses_is_empty r = false)
    (hres : resolve_dura_branch r = (bt, r1))
    (hp : List.lookup (bt.getD r.head) r1.commits = some pc)
    (ht : List.lookup pc.tree r1.trees = some pt)
    (hdiff : mapEqB pt (add_all r1) = false) :
    capture sig r =
      (.ok (some ⟨duraBranchName r.head, r1.nextOid + 1, r.head⟩),
       { head := r1.head,
         branches := (duraBranchName r.head, r1.nextOid + 1) ::
           r1.branches.filter (fun q => !(q.1 == duraBranchName r.head)),
         tags := r1.tags,
         commits := (r1.nextOid + 1,
           { parents := [bt.getD r.head], tree := r1.nextOid, author := sig.author,
             time := sig.time, message := "dura auto-backup" }) :: r1.commits,
         trees := (r1.nextOid, add_all r1) :: r1.trees,
         worktree := r1.worktree,
         indexFile := r1.indexFile,
         nextOid := r1.nextOid + 2 }) := by
  rw [capture_eq_run sig hl hs' hres hp ht, if_neg (by simp [hdiff]),
    commit_state_spec]

/-- C3 (parent determination): when capture creates a snapshot commit, the
reported branch is dura/<HEAD>, the base is HEAD, the branch now points at
the new commit, and the new commit's parent list is exactly the single
commit chosen by the claim's rule. -/
theorem capture_parent_rule (sig : Sig) (r : Repo) (h : wf r)
    (cap : CaptureStatus)
    (hcap : (capture sig r).1 = CapResult.ok (some cap)) :
    cap.dura_branch = duraBranchName r.head ∧
    cap.base_hash = r.head ∧
    List.lookup cap.dura_branch ((capture sig r).2).branches = some cap.commit_hash ∧
    (List.lookup cap.commit_hash ((capture sig r).2).commits).map CommitObj.parents =
      some [parent_rule r] := by
  obtain ⟨hw1, hw2, hw3, hw4, hw5, hw6⟩ := h
  obtain ⟨c, hl⟩ : ∃ c, List.lookup r.head r.commits = some c :=
    Option.isSome_iff_exists.mp hw1
  by_cases hs : statuses_is_empty r = true
  · rw [capture_eq_clean sig hl hs] at hcap
    simp at hcap
  · have hs' : statuses_is_empty r = false := eq_false_of_ne_true hs
    cases hb : List.lookup (duraBranchName r.head) r.branches with
    | none =>
      have hres := resolve_eq_absent hb
      have hp : List.lookup ((none : Option Nat).getD r.head) r.commits = some c := hl
      obtain ⟨pt, ht⟩ : ∃ pt, List.lookup c.tree r.trees = some pt :=
        Option.isSome_iff_exists.mp (hw3 _ (mem_of_lookup_eq_some hl)).2.2
      by_cases hdiff : mapEqB pt (add_all r) = true
      · rw [capture_eq_run sig hl hs' hres hp ht, if_pos hdiff] at hcap
        simp at hcap
      · have heq := capture_commit_facts sig hl hs' hres hp ht
          (eq_false_of_ne_true hdiff)
        rw [heq] at hcap ⊢
        simp only [CapResult.ok.injEq, Option.some.injEq] at hcap
        subst hcap
        refine ⟨rfl, rfl, ?_, ?_⟩
        · show List.lookup (duraBranchName r.head)
            ((duraBranchName r.head, r.nextOid + 1) :: _) = _
          rw [List.lookup, beq_self_eq_true]
        · show (List.lookup (r.nextOid + 1) ((r.nextOid + 1, _) :: r.commits)).map
            CommitObj.parents = _
          rw [List.lookup, beq_self_eq_true]
          show some [((none : Option Nat)).getD r.head] = some [parent_rule r]
          unfold parent_rule
          rw [hb]
          rfl
    | some tip =>
      cases hbc : List.lookup tip r.commits with
      | none =>
        have := (hw5 _ (mem_of_lookup_eq_some hb)).2
        rw [hbc] at this
        simp at this
      | some tc =>
        by_cases he : tip = r.head
        · have hres := resolve_eq_stale hb hbc he
          have hp : List.lookup ((none : Option Nat).getD r.head)
              (delete_branch r (duraBranchName r.head)).commits = some c := hl
          obtain ⟨pt, ht0⟩ : ∃ pt, List.lookup c.tree r.trees = some pt :=
            Option.isSome_iff_exists.mp (hw3 _ (mem_of_lookup_eq_some hl)).2.2
          have ht : List.lookup c.tree
              (delete_branch r (duraBranchName r.head)).trees = some pt := ht0
          by_cases hdiff : mapEqB pt
              (add_all (delete_branch r (duraBranchName r.head))) = true
          · rw [capture_eq_run sig hl hs' hres hp ht, if_pos hdiff] at hcap
            simp at hcap
          · have heq := capture_commit_facts sig hl hs' hres hp ht
              (eq_false_of_ne_true hdiff)
            rw [heq] at hcap ⊢
            simp only [CapResult.ok.injEq, Option.some.injEq] at hcap
            subst hcap
            refine ⟨rfl, rfl, ?_, ?_⟩
            · show List.lookup (duraBranchName r.head)
                ((duraBranchName r.head,
                  (delete_branch r (duraBranchName r.head)).nextOid + 1) :: _) = _
              rw [List.lookup, beq_self_eq_true]
            · show (List.lookup ((delete_branch r (duraBranchName r.head)).nextOid + 1)
                  (((delete_branch r (duraBranchName r.head)).nextOid + 1, _) ::
                    (delete_branch r (duraBranchName r.head)).commits)).map
                  CommitObj.parents = _
              rw [List.lookup, beq_self_eq_true]
              show some [((none : Option Nat)).getD r.head] = some [parent_rule r]
              unfold parent_rule
              rw [hb]
              simp [he]
        · have hres := resolve_eq_tip hb hbc he
          have hp : List.lookup ((some tip).getD r.head) r.commits = some tc := hbc
          obtain ⟨pt, ht⟩ : ∃ pt, List.lookup tc.tree r.trees = some pt :=
            Option.isSome_iff_exists.mp (hw3 _ (mem_of_lookup_eq_some hbc)).2.2
          by_cases hdiff : mapEqB pt (add_all r) = true
          · rw [capture_eq_run sig hl hs' hres hp ht, if_pos hdiff] at hcap
            simp at hcap
          · have heq := capture_commit_facts sig hl hs' hres hp ht
              (eq_false_of_ne_true hdiff)
            rw [heq] at hcap ⊢
            simp only [CapResult.ok.injEq, Option.some.injEq] at hcap
            subst hcap
            refine ⟨rfl, rfl, ?_, ?_⟩
            · show List.lookup (duraBranchName r.head)
                ((duraBranchName r.head, r.nextOid + 1) :: _) = _
              rw [List.lookup, beq_self_eq_true]
            · show (List.lookup (r.nextOid + 1) ((r.nextOid + 1, _) :: r.commits)).map
                CommitObj.parents = _
              rw [List.lookup, beq_self_eq_true]
              show some [((some tip)).getD r.head] = some [parent_rule r]
              unfold parent_rule
              rw [hb]
              simp [he]

/-- C10 (None is not side-effect free): when the branch dura/<HEAD> exists
with its tip equal to HEAD, the status query is non-empty, but the tree
diff against HEAD's tree is empty, capture deletes the branch and then
returns Ok(None) — so a None result does not guarantee the dura refs are
unchanged. -/
theorem capture_none_deletes_branch (sig : Sig) (r : Repo) (h : wf r)
    (hb : List.lookup (duraBranchName r.head) r.branches = some r.head)
    (hs : statuses_is_empty r = false)
    (t : Content)
    (hht : headTreeContent r = some t)
    (hd : mapEqB t r.worktree = true) :
    (capture sig r).1 = CapResult.ok none ∧
    List.lookup (duraBranchName r.head) ((capture sig r).2).branches = none := by
  obtain ⟨hw1, hw2, hw3, hw4, hw5, hw6⟩ := h
  obtain ⟨c, hl⟩ : ∃ c, List.lookup r.head r.commits = some c :=
    Option.isSome_iff_exists.mp hw1
  have hres := resolve_eq_stale hb hl rfl
  have hp : List.lookup ((none : Option Nat).getD r.head)
      (delete_branch r (duraBranchName r.head)).commits = some c := hl
  have hct : List.lookup c.tree r.trees = some t := by
    unfold headTreeContent at hht
    rw [hl] at hht
    exact hht
  have ht : List.lookup c.tree
      (delete_branch r (duraBranchName r.head)).trees = some t := hct
  have hdiff : mapEqB t (add_all (delete_branch r (duraBranchName r.head))) = true := hd
  rw [capture_eq_run sig hl hs hres hp ht, if_pos hdiff]
  refine ⟨rfl, ?_⟩
  show List.lookup (duraBranchName r.head)
    (delete_branch r (duraBranchName r.head)).branches = none
  rw [delete_branch_branches]
  exact lookup_filter_self _ _

/-! ### Change Guard (src/poll_guard.rs) -/

/-- State visible to PollGuard::dir_changed for one repository directory.
openOk models success of Repository::open plus head()?.peel_to_commit()?;
headTime and commitTimes are commit times in whole seconds (git commit
times have second granularity); mtimes are the modification timestamps of
the entries visited by the WalkDir loop, in seconds, as exact rationals
(the f32 comparison of the source is modelled by exact arithmetic). -/
structure GuardRepo where
  openOk : Bool
  headId : Nat
  headTime : Int
  branches : List (String × Nat)
  commitTimes : List (Nat × Int)
  mtimes : List ℚ
deriving DecidableEq

/-- PollGuard::get_watermark (src/poll_guard.rs lines 56–82): the commit
time of the dura/<HEAD> branch tip if that branch resolves to a commit,
with any failure falling back to the commit time of HEAD itself; fails
altogether when the repo cannot be opened or HEAD does not resolve. -/
def get_watermark (g : GuardRepo) : Option ℚ :=
  if g.openOk then
    some (match (List.lookup (duraBranchName g.headId) g.branches).bind
            (fun tip => List.lookup tip g.commitTimes) with
          | some t => (t : ℚ)
          | none => (g.headTime : ℚ))
  else none

/-- PollGuard::dir_changed (src/poll_guard.rs lines 29–53): true when the
watermark fails, or when some walked entry's mtime exceeds the watermark
by more than one second (entries older than the watermark make
duration_since fail and are skipped via unwrap_or(false)). -/
def dir_changed (g : GuardRepo) : Bool :=
  match get_watermark g with
  | none => true
  | some w => g.mtimes.any (fun m => decide (w + 1 < m))

/-- The watermark value as the claim words it: the commit time of the
dura/<HEAD> branch tip when that branch resolves, otherwise the commit
time of HEAD itself. -/
def watermark_rule (g : GuardRepo) : ℚ :=
  match (List.lookup (duraBranchName g.headId) g.branches).bind
          (fun tip => List.lookup tip g.commitTimes) with
  | some t => (t : ℚ)
  | none => (g.headTime : ℚ)

/-- C4: dir_changed returns true iff the watermark computation fails or
some walked file's mtime exceeds the watermark by more than one second;
and the watermark is the dura/<HEAD> tip commit time when that branch
resolves, else HEAD's commit time. -/
theorem dir_changed_spec (g : GuardRepo) :
    (dir_changed g = true ↔
      (get_watermark g = none ∨
       ∃ w, get_watermark g = some w ∧ ∃ m ∈ g.mtimes, w + 1 < m)) ∧
    get_watermark g = (if g.openOk then some (watermark_rule g) else none) := by
  constructor
  · unfold dir_changed
    cases hw : get_watermark g with
    | none => simp
    | some w =>
      simp only [List.any_eq_true, decide_eq_true_eq]
      constructor
      · intro hm
        exact Or.inr ⟨w, rfl, hm⟩
      · rintro (hc | ⟨w2, hw2, hm⟩)
        · exact absurd hc (by simp)
        · rw [Option.some.injEq] at hw2
          exact hw2 ▸ hm
  · unfold get_watermark watermark_rule
    cases g.openOk <;> simp

/-! ### Consolidator (src/octopus.rs) -/

/-- A commit as seen by build_tree: its id and the data that
make_compacted_commit copies from parents[0] plays no further role in the
claims, so only the id and the existing parent ids are kept. -/
structure OCommit where
  id : Nat
  parents : List Nat
deriving DecidableEq

/-- Fuel-driven helper for slice::chunks. -/
def chunks_go {α : Type} (p : Nat) : Nat → List α → List (List α)
  | 0, _ => []
  | _, [] => []
  | Nat.succ f, l => l.take p :: chunks_go p f (l.drop p)

/-- slice::chunks(p): split into consecutive chunks of size p (for p > 0
the last chunk may be shorter; chunks are never empty). -/
def chunksOf {α : Type} (p : Nat) (l : List α) : List (List α) :=
  chunks_go p l.length l

/-- build_tree (src/octopus.rs lines 302–355).  Each created merge commit
(make_compacted_commit, lines 357–369) is represented by the list of ids of
its parents, in the order the source passes them.  The source first fills
the excess bucket with the oldest eligible commits, then pushes the
unfinished (first, i.e. newest) chunk if the length is not a multiple of
num_parents, then the remaining full chunks, and pushes the reworked
excess commit last.  (The loop's break on an empty chunk is dead code for
num_parents > 0 and is not modelled.) -/
def build_tree (parent_commits : List OCommit) (num_parents : Nat)
    (excess_bucket : Option OCommit) : List (List Nat) :=
  let excessOut : Option (List Nat) :=
    match excess_bucket with
    | some ex =>
      let num_excess : Int :=
        min ((num_parents : Int) - (ex.parents.length : Int))
            (parent_commits.length : Int)
      if 0 < num_excess then
        some (((parent_commits.drop
                 (parent_commits.length - num_excess.toNat)).map OCommit.id)
              ++ ex.parents)
      else none
    | none => none
  let unfinished_size := parent_commits.length % num_parents
  let first :=
    if 0 < unfinished_size then
      [(parent_commits.take unfinished_size).map OCommit.id]
    else []
  let rest := (chunksOf num_parents
                (parent_commits.drop unfinished_size)).map (List.map OCommit.id)
  first ++ rest ++ excessOut.toList

/-! Chunk lemmas. -/

theorem chunks_go_nil {α : Type} (p f : Nat) :
    chunks_go (α := α) p f [] = [] := by
  cases f <;> rfl

theorem chunks_go_fuel {α : Type} (p : Nat) (hp : 0 < p) :
    ∀ (f1 f2 : Nat) (l : List α), l.length ≤ f1 → l.length ≤ f2 →
      chunks_go p f1 l = chunks_go p f2 l := by
  intro f1
  induction f1 with
  | zero =>
    intro f2 l h1 _
    have : l = [] := List.eq_nil_of_length_eq_zero (Nat.le_zero.mp h1)
    rw [this, chunks_go_nil, chunks_go_nil]
  | succ f ih =>
    intro f2 l h1 h2
    cases l with
    | nil => rw [chunks_go_nil, chunks_go_nil]
    | cons a t =>
      cases f2 with
      | zero => simp at h2
      | succ f2' =>
        show (a :: t).take p :: chunks_go p f ((a :: t).drop p) =
          (a :: t).take p :: chunks_go p f2' ((a :: t).drop p)
        have hlen : ((a :: t).drop p).length ≤ f := by
          rw [List.length_drop]
          have := List.length_cons a t ▸ h1
          omega
        have hlen2 : ((a :: t).drop p).length ≤ f2' := by
          rw [List.length_drop]
          have := List.length_cons a t ▸ h2
          omega
        rw [ih f2' _ hlen hlen2]

theorem chunksOf_cons (p : Nat) (hp : 0 < p) {α : Type} (l : List α)
    (hl : l ≠ []) :
    chunksOf p l = l.take p :: chunksOf p (l.drop p) := by
  unfold chunksOf
  cases l with
  | nil => exact absurd rfl hl
  | cons a t =>
    show (a :: t).take p :: chunks_go p (a :: t).length.pred ((a :: t).drop p) =
      (a :: t).take p :: chunks_go p ((a :: t).drop p).length ((a :: t).drop p)
    rw [chunks_go_fuel p hp _ _ _ (by rw [List.length_drop]; simp; omega) (Nat.le_refl _)]

theorem chunksOf_length {α : Type} (p : Nat) (hp : 0 < p) :
    ∀ (l : List α), p ∣ l.length → (chunksOf p l).length = l.length / p := by
  have H : ∀ (n : Nat) (l : List α), l.length = n → p ∣ l.length →
      (chunksOf p l).length = l.length / p := by
    intro n
    induction n using Nat.strong_induction_on with
    | _ n ih =>
      intro l hn hdvd
      cases l with
      | nil => simp [chunksOf, chunks_go_nil]
      | cons a t =>
        have hpos : 0 < (a :: t).length := by simp
        have hple : p ≤ (a :: t).length := Nat.le_of_dvd hpos hdvd
        rw [chunksOf_cons p hp _ (by simp)]
        have hdlen : ((a :: t).drop p).length = (a :: t).length - p :=
          List.length_drop _ _
        have hdvd2 : p ∣ ((a :: t).drop p).length := by
          rw [hdlen]
          exact (Nat.dvd_sub' hdvd dvd_rfl)
        have hlt : ((a :: t).drop p).length < n := by
          rw [hdlen, ← hn]; omega
        rw [List.length_cons, ih _ hlt _ rfl hdvd2, hdlen]
        obtain ⟨k, hk⟩ := hdvd
        cases k with
        | zero => omega
        | succ k' =>
          rw [hk, Nat.mul_succ, Nat.add_sub_cancel, Nat.mul_div_cancel_left _ hp,
            Nat.add_div_right _ hp, Nat.mul_div_cancel_left _ hp]
  intro l
  exact H l.length l rfl

theorem chunksOf_mem_length {α : Type} (p : Nat) (hp : 0 < p) :
    ∀ (l : List α), ∀ c ∈ chunksOf p l, c ≠ [] ∧ c.length ≤ p := by
  have H : ∀ (n : Nat) (l : List α), l.length = n →
      ∀ c ∈ chunksOf p l, c ≠ [] ∧ c.length ≤ p := by
    intro n
    induction n using Nat.strong_induction_on with
    | _ n ih =>
      intro l hn c hc
      cases l with
      | nil => simp [chunksOf, chunks_go_nil] at hc
      | cons a t =>
        rw [chunksOf_cons p hp _ (by simp)] at hc
        rcases List.mem_cons.mp hc with h1 | h1
        · subst h1
          constructor
          · cases p with
            | zero => omega
            | succ q => simp [List.take]
          · rw [List.length_take]; omega
        · have hlt : ((a :: t).drop p).length < n := by
            rw [List.length_drop, ← hn]; simp; omega
          exact ih _ hlt _ rfl c h1
  intro l
  exact H l.length l rfl

theorem chunksOf_mem_full {α : Type} (p : Nat) (hp : 0 < p) :
    ∀ (l : List α), p ∣ l.length → ∀ c ∈ chunksOf p l, c.length = p := by
  have H : ∀ (n : Nat) (l : List α), l.length = n → p ∣ l.length →
      ∀ c ∈ chunksOf p l, c.length = p := by
    intro n
    induction n using Nat.strong_induction_on with
    | _ n ih =>
      intro l hn hdvd c hc
      cases l with
      | nil => simp [chunksOf, chunks_go_nil] at hc
      | cons a t =>
        have hpos : 0 < (a :: t).length := by simp
        have hple : p ≤ (a :: t).length := Nat.le_of_dvd hpos hdvd
        rw [chunksOf_cons p hp _ (by simp)] at hc
        rcases List.mem_cons.mp hc with h1 | h1
        · subst h1
          rw [List.length_take]
          omega
        · have hdlen : ((a :: t).drop p).length = (a :: t).length - p :=
            List.length_drop _ _
          have hdvd2 : p ∣ ((a :: t).drop p).length := by
            rw [hdlen]
            exact (Nat.dvd_sub' hdvd dvd_rfl)
          have hlt : ((a :: t).drop p).length < n := by
            rw [hdlen, ← hn]; omega
          exact ih _ hlt _ rfl hdvd2 c h1
  intro l
  exact H l.length l rfl

/-- build_tree with no excess bucket, in closed form: the unfinished
(newest) chunk first, then the full chunks. -/
theorem build_tree_no_excess (cs : List OCommit) (p : Nat) :
    build_tree cs p none =
      (if 0 < cs.length % p then [(cs.take (cs.length % p)).map OCommit.id] else [])
      ++ (chunksOf p (cs.drop (cs.length % p))).map (List.map OCommit.id) := by
  rw [show build_tree cs p none =
      ((if 0 < cs.length % p then [(cs.take (cs.length % p)).map OCommit.id] else [])
       ++ (chunksOf p (cs.drop (cs.length % p))).map (List.map OCommit.id)) ++ []
    from rfl]
  rw [List.append_nil]

/-- C5 counterexample: a Flat pass with num_parents = 2 over 3 eligible
commits (no excess bucket) creates a merge commit with a single parent, so
"every new merge commit has between 2 and p parents" fails. -/
theorem flat_arity_counterexample :
    (build_tree [⟨2, []⟩, ⟨1, []⟩, ⟨0, []⟩] 2 none).length = (3 + 2 - 1) / 2 ∧
    (build_tree [⟨2, []⟩, ⟨1, []⟩, ⟨0, []⟩] 2 none).all
      (fun g => decide (2 ≤ g.length ∧ g.length ≤ 2)) = false := by
  decide

/-- C5 amended: over N > 0 eligible commits with no excess bucket and
2 ≤ p, the number of new merge commits is ⌈N/p⌉ and every new merge commit
has between 1 and p parents (the single partial chunk can have as few as
one parent; all other chunks have exactly p). -/
theorem flat_arity_amended (cs : List OCommit) (p : Nat) (hp : 2 ≤ p)
    (_hne : cs ≠ []) :
    (build_tree cs p none).length = (cs.length + p - 1) / p ∧
    (build_tree cs p none).all
      (fun g => decide (1 ≤ g.length ∧ g.length ≤ p)) = true := by
  have hp0 : 0 < p := by omega
  have hbt := build_tree_no_excess cs p
  have hNq : p * (cs.length / p) + cs.length % p = cs.length := Nat.div_add_mod _ _
  obtain ⟨m, hm⟩ : ∃ m, p * (cs.length / p) = m := ⟨_, rfl⟩
  have hulep : cs.length % p < p := Nat.mod_lt _ hp0
  have hdrop : (cs.drop (cs.length % p)).length = m := by
    rw [List.length_drop]
    omega
  have hdvd : p ∣ (cs.drop (cs.length % p)).length := by
    rw [hdrop, ← hm]
    exact Dvd.intro _ rfl
  constructor
  · rw [hbt, List.length_append, List.length_map,
      chunksOf_length p hp0 _ hdvd, hdrop, ← hm,
      Nat.mul_div_cancel_left _ hp0]
    by_cases hu : 0 < cs.length % p
    · rw [if_pos hu, List.length_singleton]
      have h1 : cs.length + p - 1 = p * (cs.length / p) + ((cs.length % p - 1) + p) := by
        rw [hm]; omega
      have hdd : (cs.length % p - 1) / p = 0 := Nat.div_eq_of_lt (by omega)
      rw [h1, Nat.mul_add_div hp0, Nat.add_div_right _ hp0, hdd]
      omega
    · rw [if_neg hu, List.length_nil]
      have h1 : cs.length + p - 1 = p * (cs.length / p) + (p - 1) := by
        rw [hm]; omega
      have hdd : (p - 1) / p = 0 := Nat.div_eq_of_lt (by omega)
      rw [h1, Nat.mul_add_div hp0, hdd]
      omega
  · rw [hbt, List.all_eq_true]
    intro g hg
    rw [List.mem_append] at hg
    rcases hg with hg | hg
    · by_cases hu : 0 < cs.length % p
      · rw [if_pos hu, List.mem_singleton] at hg
        subst hg
        rw [decide_eq_true_eq, List.length_map, List.length_take]
        have := Nat.mod_le cs.length p
        constructor <;> omega
      · rw [if_neg hu] at hg
        simp at hg
    · obtain ⟨c, hc, rfl⟩ := List.mem_map.mp hg
      rw [decide_eq_true_eq, List.length_map]
      have := chunksOf_mem_full p hp0 _ hdvd c hc
      omega

/-- The grouping as the claim words it (the OLDEST group is the partial
one and is taken first): the last N mod p commits of the newest-first list
form the first group, the rest are chunked. -/
def spec_groups_oldest (cs : List OCommit) (p : Nat) : List (List Nat) :=
  if 0 < cs.length % p then
    ((cs.drop (cs.length - cs.length % p)).map OCommit.id) ::
      (chunksOf p (cs.take (cs.length - cs.length % p))).map (List.map OCommit.id)
  else (chunksOf p cs).map (List.map OCommit.id)

/-- C6 counterexample: over 3 eligible commits (ids 2,1,0 newest-first)
with num_parents = 2, the source's partial group is the NEWEST commit
([2]), not the oldest ([0]) as the claim states. -/
theorem partial_group_counterexample :
    build_tree [⟨2, []⟩, ⟨1, []⟩, ⟨0, []⟩] 2 none ≠
      spec_groups_oldest [⟨2, []⟩, ⟨1, []⟩, ⟨0, []⟩] 2 ∧
    build_tree [⟨2, []⟩, ⟨1, []⟩, ⟨0, []⟩] 2 none = [[2], [1, 0]] := by
  decide

/-- C6 amended: when N is not a multiple of num_parents, the NEWEST group
is the partial one and it is taken first, so that every subsequent group
is exactly num_parents wide (the oldest groups are always full). -/
theorem partial_group_amended (cs : List OCommit) (p : Nat) (hp0 : 0 < p)
    (hnd : ¬ p ∣ cs.length) :
    build_tree cs p none =
      ((cs.take (cs.length % p)).map OCommit.id) ::
        (chunksOf p (cs.drop (cs.length % p))).map (List.map OCommit.id) ∧
    ((chunksOf p (cs.drop (cs.length % p))).map (List.map OCommit.id)).all
      (fun g => decide (g.length = p)) = true := by
  have hu : 0 < cs.length % p := by
    rcases Nat.eq_zero_or_pos (cs.length % p) with h | h
    · exact absurd (Nat.dvd_of_mod_eq_zero h) hnd
    · exact h
  have hNq : p * (cs.length / p) + cs.length % p = cs.length := Nat.div_add_mod _ _
  obtain ⟨m, hm⟩ : ∃ m, p * (cs.length / p) = m := ⟨_, rfl⟩
  have hdrop : (cs.drop (cs.length % p)).length = m := by
    rw [List.length_drop]
    omega
  have hdvd : p ∣ (cs.drop (cs.length % p)).length := by
    rw [hdrop, ← hm]
    exact Dvd.intro _ rfl
  constructor
  · rw [build_tree_no_excess, if_pos hu, List.singleton_append]
  · rw [List.all_eq_true]
    intro g hg
    obtain ⟨c, hc, rfl⟩ := List.mem_map.mp hg
    rw [decide_eq_true_eq, List.length_map]
    exact chunksOf_mem_full p hp0 _ hdvd c hc

/-! ### Poll loop and runtime lock (src/poller.rs) -/

/-- The slice of configuration do_task reads: the persisted lock pid and
the watched root paths. -/
structure PollConfig where
  pid : Option Nat
  repos : List String
deriving DecidableEq

/-- Observable events of one tick. -/
inductive PollEvent where
  | exit1
  | visit (dir : String)
deriving DecidableEq

/-- do_task (src/poller.rs lines 93–107): reload the config, and if its
recorded pid differs from the process's own pid, exit(1) — before the loop
over config.repos runs; otherwise visit each watched root. -/
def do_task (ownPid : Nat) (cfg : PollConfig) : List PollEvent :=
  if cfg.pid != some ownPid then [PollEvent.exit1]
  else cfg.repos.map PollEvent.visit

/-- start (src/poller.rs lines 109–118) re-reads the config on every tick;
the daemon is still alive after tick n iff no tick m ≤ n exited. -/
def survives_through (ownPid : Nat) (cfgs : Nat → PollConfig) (n : Nat) : Bool :=
  (List.range (n + 1)).all (fun m => !((do_task ownPid (cfgs m)).contains PollEvent.exit1))

/-- C7 (lock handoff): on any tick whose re-read lock pid differs from the
daemon's own pid, the tick's whole trace is the single exit(1) event — so
no repository is visited — and consequently the daemon does not survive
through any tick at which the lock no longer names it (it terminates
within one poll interval of the overwrite). -/
theorem lock_mismatch_exits (ownPid : Nat) (cfg : PollConfig)
    (cfgs : Nat → PollConfig) (n : Nat) :
    (cfg.pid ≠ some ownPid → do_task ownPid cfg = [PollEvent.exit1]) ∧
    ((cfgs n).pid ≠ some ownPid → survives_through ownPid cfgs n = false) := by
  constructor
  · intro hne
    have hb : (cfg.pid != some ownPid) = true := by
      simp [bne_iff_ne, hne]
    unfold do_task
    rw [if_pos hb]
  · intro hne
    have hb : (cfgs n).pid != some ownPid := by
      simp [bne_iff_ne, hne]
    unfold survives_through
    rw [List.all_eq_false]
    refine ⟨n, List.mem_range.mpr (by omega), ?_⟩
    unfold do_task
    rw [if_pos hb]
    simp [List.contains]

/-! ### Repo discovery admissibility (src/git_repo_iter.rs) -/

/-- GitRepoIter::is_valid_directory (src/git_repo_iter.rs lines 122–149)
over component-list paths.  isDir is the result of the external
child_path.is_dir() call; include/exclude patterns are relative component
lists and base.join(e) is base ++ e. -/
def is_valid_directory (isDir : Bool) (base child : List String)
    (includes excludes : List (List String)) : Bool :=
  if !isDir then false
  else if !(List.isPrefixOf base child) then false
  else
    let include1 :=
      if !excludes.isEmpty then
        !(excludes.any (fun e => List.isPrefixOf (base ++ e) child))
      else true
    let include2 :=
      if !include1 && !includes.isEmpty then
        includes.any (fun i => List.isPrefixOf child (base ++ i))
      else include1
    include2

/-- The admissibility test as the claim words it: a directory under the
root is admitted unless an exclude fired, in which case it is re-admitted
exactly when some include element i satisfies "base/i is under child";
when no exclude fired the include list is ignored. -/
def is_valid_directory_claim (isDir : Bool) (base child : List String)
    (includes excludes : List (List String)) : Bool :=
  isDir && List.isPrefixOf base child &&
    (if excludes.any (fun e => List.isPrefixOf (base ++ e) child) then
       includes.any (fun i => List.isPrefixOf child (base ++ i))
     else true)

/-- C8: the source's admissibility test coincides with the claim's
reading — the include list is consulted exactly when an exclude fired, and
then re-admits exactly when some include element lies under the child. -/
theorem is_valid_directory_spec (isDir : Bool) (base child : List String)
    (includes excludes : List (List String)) :
    is_valid_directory isDir base child includes excludes =
      is_valid_directory_claim isDir base child includes excludes := by
  unfold is_valid_directory is_valid_directory_claim
  cases isDir with
  | false => simp
  | true =>
    cases hpre : List.isPrefixOf base child with
    | false => simp [hpre]
    | true =>
      simp only [Bool.not_true, Bool.false_eq_true, if_false, Bool.true_and]
      cases excludes with
      | nil => simp
      | cons e es =>
        simp only [List.isEmpty_cons, Bool.not_false, if_true, if_pos]
        cases hfired : (e :: es).any (fun e => List.isPrefixOf (base ++ e) child) with
        | false => simp [hfired]
        | true =>
          simp only [hfired, Bool.not_true, Bool.true_and, if_true]
          cases includes with
          | nil => simp
          | cons i is => simp

/-! ### Directory-cache cycling and bucket randomization
(src/git_repo_iter.rs, CachedFs) -/

/-- CachedFs::cycle (lines 248–251): the cycle counter is incremented
modulo max_sig_ticks * 4. -/
def cycle_step (max_sig_ticks cycle_count : Nat) : Nat :=
  (cycle_count + 1) % (max_sig_ticks * 4)

/-- The upper bound computed by CachedFs::gen_rand (lines 257–264):
n + abs(2n − cycle^0.9), over exact rationals; pow09 stands for the value
of (cycle_count as f32).powf(0.9). -/
def gen_rand_max (max_sig_ticks : Nat) (pow09 : ℚ) : ℚ :=
  (max_sig_ticks : ℚ) + abs (2 * (max_sig_ticks : ℚ) - pow09)

/-- The upper bound as the claim words it: max(B, |2B − cycle^0.9|). -/
def gen_rand_max_claim (max_sig_ticks : Nat) (pow09 : ℚ) : ℚ :=
  max (max_sig_ticks : ℚ) (abs (2 * (max_sig_ticks : ℚ) - pow09))

/-- .to_u16().unwrap_or(u16::MAX): truncate toward zero, saturating at
65535. -/
def rat_to_u16 (q : ℚ) : Nat :=
  if q ≥ 65536 then 65535 else (⌊q⌋).toNat

/-- gen_range(0..max) over an entropy source e: the draw is e mod max. -/
def gen_rand_draw (max_sig_ticks : Nat) (pow09 : ℚ) (e : Nat) : Nat :=
  e % rat_to_u16 (gen_rand_max max_sig_ticks pow09)

theorem gen_rand_max_at_six : gen_rand_max 6 1 = 17 := by
  unfold gen_rand_max
  rw [abs_of_nonneg (by norm_num)]
  norm_num

theorem gen_rand_max_claim_at_six : gen_rand_max_claim 6 1 = 11 := by
  unfold gen_rand_max_claim
  rw [abs_of_nonneg (by norm_num), max_eq_right (by norm_num)]
  norm_num

theorem rat_to_u16_code_six : rat_to_u16 (gen_rand_max 6 1) = 17 := by
  rw [gen_rand_max_at_six]
  unfold rat_to_u16
  rw [if_neg (by norm_num)]
  norm_num
  decide

theorem rat_to_u16_claim_six : rat_to_u16 (gen_rand_max_claim 6 1) = 11 := by
  rw [gen_rand_max_claim_at_six]
  unfold rat_to_u16
  rw [if_neg (by norm_num)]
  norm_num
  decide

/-- C9 counterexample: with B = 6 buckets (the source's own test value:
120 s lifetime / 4 / 5 s interval) and cycle_count = 1 (so cycle^0.9 = 1
exactly), the code draws from [0, 6 + |12 − 1|) = [0, 17) while the claim
allows [0, max(6, 11)) = [0, 11): the value 12 is drawable by the code but
excluded by the claim's interval. -/
theorem gen_rand_bound_counterexample :
    rat_to_u16 (gen_rand_max 6 1) = 17 ∧
    rat_to_u16 (gen_rand_max_claim 6 1) = 11 ∧
    gen_rand_draw 6 1 12 = 12 ∧
    ¬ (12 < rat_to_u16 (gen_rand_max_claim 6 1)) := by
  refine ⟨rat_to_u16_code_six, rat_to_u16_claim_six, ?_, ?_⟩
  · unfold gen_rand_draw
    rw [rat_to_u16_code_six]
  · rw [rat_to_u16_claim_six]
    omega

/-- C9 amended: the rotating bucket is drawn uniformly from
[0, trunc(B + |2B − cycle^0.9|)) — a sum, not a max — and the cycle counter
is incremented modulo 4B: every draw lands below that bound, every value
below the bound is attained (the draw over the entropy values 0..bound-1
enumerates the whole interval), and the counter update is (c+1) mod 4B. -/
theorem gen_rand_amended (max_sig_ticks cycle_count : Nat) (pow09 : ℚ) (e : Nat)
    (hpos : 0 < rat_to_u16 (gen_rand_max max_sig_ticks pow09)) :
    gen_rand_draw max_sig_ticks pow09 e <
      rat_to_u16 (gen_rand_max max_sig_ticks pow09) ∧
    (List.range (rat_to_u16 (gen_rand_max max_sig_ticks pow09))).map
        (gen_rand_draw max_sig_ticks pow09) =
      List.range (rat_to_u16 (gen_rand_max max_sig_ticks pow09)) ∧
    cycle_step max_sig_ticks cycle_count = (cycle_count + 1) % (max_sig_ticks * 4) := by
  refine ⟨Nat.mod_lt _ hpos, ?_, rfl⟩
  have h : ∀ v ∈ List.range (rat_to_u16 (gen_rand_max max_sig_ticks pow09)),
      gen_rand_draw max_sig_ticks pow09 v = v := by
    intro v hv
    exact Nat.mod_eq_of_lt (List.mem_range.mp hv)
  rw [List.map_congr_left h, List.map_id']

/-! ### Concrete witness states -/

/-- A fixed committer identity. -/
def sig0 : Sig := ⟨"dura", 0⟩

/-- A repository with one commit, no dura branch, and a modified working
tree: capture creates a snapshot commit (tree oid 11, commit oid 12). -/
def repoA : Repo :=
  { head := 0, branches := [], tags := [],
    commits := [(0, ⟨[], 10, "a", 0, "m"⟩)],
    trees := [(10, [("foo", "a")])],
    worktree := [("foo", "b")], indexFile := [("foo", "a")], nextOid := 11 }

/-- A repository whose dura/0 branch points at HEAD, whose working tree
equals HEAD's tree, but whose on-disk index is dirty: status is non-empty
yet the diff against HEAD's tree is empty, so capture deletes the branch
dura/0 and returns None. -/
def repoB : Repo :=
  { head := 0, branches := [("dura/0", 0)], tags := [],
    commits := [(0, ⟨[], 10, "a", 0, "m"⟩)],
    trees := [(10, [("foo", "x")])],
    worktree := [("foo", "x")], indexFile := [("foo", "y")], nextOid := 11 }

theorem capture_idempotent_at_rest_witness :
    wf repoA ∧ (capture sig0 (capture sig0 repoA).2).1 = CapResult.ok none :=
  ⟨by decide, capture_idempotent_at_rest sig0 sig0 repoA (by decide)⟩

theorem capture_parent_rule_witness :
    wf repoA ∧
    (capture sig0 repoA).1 = CapResult.ok (some ⟨"dura/0", 12, 0⟩) ∧
    ((⟨"dura/0", 12, 0⟩ : CaptureStatus).dura_branch = duraBranchName repoA.head ∧
     (⟨"dura/0", 12, 0⟩ : CaptureStatus).base_hash = repoA.head ∧
     List.lookup (⟨"dura/0", 12, 0⟩ : CaptureStatus).dura_branch
       ((capture sig0 repoA).2).branches =
       some (⟨"dura/0", 12, 0⟩ : CaptureStatus).commit_hash ∧
     (List.lookup (⟨"dura/0", 12, 0⟩ : CaptureStatus).commit_hash
       ((capture sig0 repoA).2).commits).map CommitObj.parents =
       some [parent_rule repoA]) :=
  ⟨by decide, by decide,
   capture_parent_rule sig0 repoA (by decide) ⟨"dura/0", 12, 0⟩ (by decide)⟩

theorem capture_none_deletes_branch_witness :
    wf repoB ∧
    List.lookup (duraBranchName repoB.head) repoB.branches = some repoB.head ∧
    statuses_is_empty repoB = false ∧
    headTreeContent repoB = some [("foo", "x")] ∧
    mapEqB [("foo", "x")] repoB.worktree = true ∧
    ((capture sig0 repoB).1 = CapResult.ok none ∧
     List.lookup (duraBranchName repoB.head)
       ((capture sig0 repoB).2).branches = none) :=
  ⟨by decide, by decide, by decide, by decide, by decide,
   capture_none_deletes_branch sig0 repoB (by decide) (by decide) (by decide)
     [("foo", "x")] (by decide) (by decide)⟩

theorem flat_arity_amended_witness :
    (2 ≤ 2) ∧ (([⟨2, []⟩, ⟨1, []⟩, ⟨0, []⟩] : List OCommit) ≠ []) ∧
    ((build_tree [⟨2, []⟩, ⟨1, []⟩, ⟨0, []⟩] 2 none).length = 2 ∧
     (build_tree [⟨2, []⟩, ⟨1, []⟩, ⟨0, []⟩] 2 none).all
       (fun g => decide (1 ≤ g.length ∧ g.length ≤ 2)) = true) :=
  ⟨by decide, by decide,
   flat_arity_amended [⟨2, []⟩, ⟨1, []⟩, ⟨0, []⟩] 2 (by decide) (by decide)⟩

theorem partial_group_amended_witness :
    (0 < 2) ∧ (¬ (2 ∣ ([⟨2, []⟩, ⟨1, []⟩, ⟨0, []⟩] : List OCommit).length)) ∧
    (build_tree [⟨2, []⟩, ⟨1, []⟩, ⟨0, []⟩] 2 none = [[2], [1, 0]] ∧
     ([[1, 0]] : List (List Nat)).all (fun g => decide (g.length = 2)) = true) :=
  ⟨by decide, by decide,
   partial_group_amended [⟨2, []⟩, ⟨1, []⟩, ⟨0, []⟩] 2 (by decide) (by decide)⟩

theorem lock_mismatch_exits_witness :
    ((⟨some 2, ["a"]⟩ : PollConfig).pid ≠ some 1 ∧
     do_task 1 ⟨some 2, ["a"]⟩ = [PollEvent.exit1]) ∧
    (((fun _ => (⟨some 2, ["a"]⟩ : PollConfig)) (0 : Nat)).pid ≠ some 1 ∧
     survives_through 1 (fun _ => ⟨some 2, ["a"]⟩) 0 = false) :=
  ⟨⟨by decide,
    (lock_mismatch_exits 1 ⟨some 2, ["a"]⟩ (fun _ => ⟨some 2, ["a"]⟩) 0).1 (by decide)⟩,
   ⟨by decide,
    (lock_mismatch_exits 1 ⟨some 2, ["a"]⟩ (fun _ => ⟨some 2, ["a"]⟩) 0).2 (by decide)⟩⟩

theorem gen_rand_amended_witness :
    0 < rat_to_u16 (gen_rand_max 6 1) ∧
    (gen_rand_draw 6 1 20 < rat_to_u16 (gen_rand_max 6 1) ∧
     (List.range (rat_to_u16 (gen_rand_max 6 1))).map (gen_rand_draw 6 1) =
       List.range (rat_to_u16 (gen_rand_max 6 1)) ∧
     cycle_step 6 3 = (3 + 1) % (6 * 4)) :=
  ⟨by rw [rat_to_u16_code_six]; omega,
   gen_rand_amended 6 3 1 20 (by rw [rat_to_u16_code_six]; omega)⟩

end Dura
